import Mathlib

/-!
Verification development for the `sstc` directory-watching transcoder.

The definitions below are a shallow embedding of the Rust sources:

* `src/transcoder.rs` — job queue, dedup/active set, worker spawning,
  ffmpeg argument construction and the ffmpeg progress-stream loop;
* `src/file_check.rs` — the stability/validity gate;
* `src/config.rs` — the configuration data model.

External effects (filesystem metadata polls, the ffprobe duration probe,
process exit status, existence of the output file) are passed in as
explicit oracle parameters; machine strings are modelled by `String`
with the Rust string operations re-implemented structurally so that
they evaluate, and Rust `i64` values by `Int` (no overflow is reachable
in the quantities involved).
-/

namespace SSTC

/-! ## String helpers (structural re-implementations of the Rust ops) -/

/-- Split a character list at every occurrence of `sep`
(the behaviour of Rust `str::split(sep)` / Lean `String.splitOn` for a
one-character separator). -/
def splitOnCharAux (sep : Char) : List Char → List Char → List (List Char)
  | [], acc => [acc.reverse]
  | c :: cs, acc =>
    if c = sep then acc.reverse :: splitOnCharAux sep cs []
    else splitOnCharAux sep cs (c :: acc)

def splitOnChar (sep : Char) (cs : List Char) : List (List Char) :=
  splitOnCharAux sep cs []

/-- Rust `str::split_once('=')`: split at the first `'='`; `none` when
the character does not occur. -/
def splitOnceEqAux : List Char → List Char → Option (List Char × List Char)
  | [], _ => none
  | c :: cs, acc => if c = '=' then some (acc.reverse, cs) else splitOnceEqAux cs (c :: acc)

def splitOnceEq (s : String) : Option (String × String) :=
  (splitOnceEqAux s.data []).map (fun kv => (String.mk kv.1, String.mk kv.2))

/-- Rust `str::trim`: strip leading and trailing whitespace. -/
def trimChars (cs : List Char) : List Char :=
  ((cs.dropWhile Char.isWhitespace).reverse.dropWhile Char.isWhitespace).reverse

def trimStr (s : String) : String := String.mk (trimChars s.data)

/-- Decimal digit-string to `Nat` (helper for the Rust integer parses). -/
def parseDigits (cs : List Char) : Option Nat :=
  if cs.isEmpty then none
  else if cs.all Char.isDigit then
    some (cs.foldl (fun n c => n * 10 + (c.toNat - 48)) 0)
  else none

/-- Rust `str::parse::<i64>().ok()` on the decimal strings ffmpeg emits
(optional sign followed by digits); overflow is not reachable for the
progress quantities involved. -/
def parseIntOpt (s : String) : Option Int :=
  match s.data with
  | '-' :: rest => (parseDigits rest).map (fun n => -(n : Int))
  | '+' :: rest => (parseDigits rest).map (fun n => (n : Int))
  | cs => (parseDigits cs).map (fun n => (n : Int))

/-- Rust `str::parse::<f64>().ok()` modelled exactly on plain decimal
literals (the dialect ffmpeg emits for `fps` and `stream_0_0_q`); the
finite decimal is represented as a rational. -/
def parseRatOpt (s : String) : Option Rat :=
  let core (cs : List Char) : Option Rat :=
    match splitOnChar '.' cs with
    | [intPart] => (parseDigits intPart).map (fun n => (n : Rat))
    | [intPart, fracPart] =>
      match parseDigits intPart, parseDigits fracPart with
      | some i, some f => some ((i : Rat) + (f : Rat) / ((10 : Rat) ^ fracPart.length))
      | _, _ => none
    | _ => none
  match s.data with
  | '-' :: rest => (core rest).map (fun q => -q)
  | '+' :: rest => core rest
  | cs => core cs

/-- Substring test (Rust `str::contains`). -/
def containsSubstring (s pat : String) : Bool :=
  (List.range (s.data.length + 1)).any (fun i => pat.data.isPrefixOf (s.data.drop i))

/-! ## Configuration data model (`src/config.rs`)

`PresetConfig.extra_options` records the preset's `extra_options`
entries in the order they are defined in the YAML file.  The Rust code
stores them in a `std::collections::HashMap`, whose iteration order is
an arbitrary (hash- and seed-dependent) permutation of the entries;
functions that consume the extra options therefore take the iteration
order as an explicit argument constrained only to be a permutation. -/

structure InputConfig where
  path : String
  extensions : List String
  preset : String
  output : String
  deriving DecidableEq, Repr

structure OutputConfig where
  path : String
  filename_template : String
  container : String
  deriving DecidableEq, Repr

structure PresetConfig where
  video_codec : Option String := none
  pixel_format : Option String := none
  audio_codec : Option String := none
  video_bitrate : Option String := none
  audio_bitrate : Option String := none
  scale : Option String := none
  extra_options : List (String × String) := []
  deriving DecidableEq, Repr

/-! ## Progress stream (`FFmpegProgress` and the read loop in
`Transcoder::transcode_file`, src/transcoder.rs) -/

structure FFmpegProgress where
  frame : Option Int := none
  fps : Option Rat := none
  stream_0_0_q : Option Rat := none
  bitrate : Option String := none
  total_size : Option Int := none
  out_time_us : Option Int := none
  out_time_ms : Option Int := none
  out_time : Option String := none
  dup_frames : Option Int := none
  drop_frames : Option Int := none
  speed : Option String := none
  progress : Option String := none
  deriving DecidableEq, Repr

/-- One field update of `FFmpegProgress::from_key_values` (the `match`
on the key). -/
def applyKeyValue (p : FFmpegProgress) (kv : String × String) : FFmpegProgress :=
  match kv.1 with
  | "frame" => { p with frame := parseIntOpt kv.2 }
  | "fps" => { p with fps := parseRatOpt kv.2 }
  | "stream_0_0_q" => { p with stream_0_0_q := parseRatOpt kv.2 }
  | "bitrate" => { p with bitrate := some kv.2 }
  | "total_size" => { p with total_size := parseIntOpt kv.2 }
  | "out_time_us" => { p with out_time_us := parseIntOpt kv.2 }
  | "out_time_ms" => { p with out_time_ms := parseIntOpt kv.2 }
  | "out_time" => { p with out_time := some kv.2 }
  | "dup_frames" => { p with dup_frames := parseIntOpt kv.2 }
  | "drop_frames" => { p with drop_frames := parseIntOpt kv.2 }
  | "speed" => { p with speed := some kv.2 }
  | "progress" => { p with progress := some kv.2 }
  | _ => p

/-- Model of `FFmpegProgress::from_key_values`: fold the accumulated key/value
record into a snapshot.  Each key sets its own field, so the fold is
insensitive to the order of the (duplicate-free) record. -/
def FFmpegProgress.from_key_values (kvs : List (String × String)) : FFmpegProgress :=
  kvs.foldl applyKeyValue {}

/-- Model of `FFmpegProgress::is_complete`. -/
def FFmpegProgress.is_complete (p : FFmpegProgress) : Bool :=
  p.progress == some "end"

/-- Model of `HashMap::insert` on the working `current_progress` record
(overwrite the value when the key is present, otherwise add the pair). -/
def insertKeyValue (m : List (String × String)) (k v : String) : List (String × String) :=
  if m.any (fun kv => kv.1 == k) then
    m.map (fun kv => if kv.1 == k then (k, v) else kv)
  else m ++ [(k, v)]

/-- Result of the progress read loop in `Transcoder::transcode_file`:
the finalized snapshots (one per line with key `progress`), the bar
positions set (`out_time_ms / 1_000_000`, whole seconds), whether the
loop broke on a terminal `progress=end` snapshot, and the lines left
unread after such a break. -/
structure ProgressLoopResult where
  snapshots : List FFmpegProgress
  positions : List Int
  sawEnd : Bool
  remaining : List String
  deriving DecidableEq, Repr

/-- The `for line in reader.lines()` loop of `Transcoder::transcode_file`:
trim the line, skip empty lines, split at the first `'='`, insert the
pair into the working record; on key `progress` finalize a snapshot,
set the bar position to `out_time_ms / 1_000_000` when present, break
if the snapshot is terminal, otherwise clear the working record. -/
def progressLoop : List String → List (String × String) → ProgressLoopResult
  | [], _ => ⟨[], [], false, []⟩
  | line :: rest, current =>
    let l := trimStr line
    if l.data.isEmpty then progressLoop rest current
    else
      match splitOnceEq l with
      | none => progressLoop rest current
      | some (k, v) =>
        let current1 := insertKeyValue current k v
        if k == "progress" then
          let prog := FFmpegProgress.from_key_values current1
          let posHere : List Int :=
            match prog.out_time_ms with
            | some ms => [Int.tdiv ms 1000000]
            | none => []
          if prog.is_complete then ⟨[prog], posHere, true, rest⟩
          else
            let r := progressLoop rest []
            ⟨prog :: r.snapshots, posHere ++ r.positions, r.sawEnd, r.remaining⟩
        else progressLoop rest current1

/-- The whole-seconds value the loop derives from a snapshot's
microsecond-scaled `out_time_ms` field (`(ms / 1_000_000) as u64`,
Rust `/` on `i64` truncates toward zero). -/
def elapsedSeconds (p : FFmpegProgress) : Option Int :=
  p.out_time_ms.map (fun ms => Int.tdiv ms 1000000)

/-! ## ffmpeg invocation (`Transcoder::transcode_file`, src/transcoder.rs) -/

/-- Model of the Rust pattern that emits `flag` followed by `v` when the
optional preset field holds `Some(v)`, and nothing otherwise. -/
def optArgs (flag : String) : Option String → List String
  | some v => [flag, v]
  | none => []

/-- The argument list `Transcoder::transcode_file` builds for the
`ffmpeg` command.  `extraIter` is the order in which the Rust
`for (key, value) in &preset.extra_options` loop visits the entries of
the `HashMap`: an arbitrary permutation of the preset's defined
`extra_options` list. -/
def build_ffmpeg_args (input_path output_path : String) (preset : PresetConfig)
    (extraIter : List (String × String)) : List String :=
  ["-v", "quiet", "-progress", "pipe:1", "-stats_period", "1.0",
   "-i", input_path, "-y", output_path]
  ++ optArgs "-c:v" preset.video_codec
  ++ optArgs "-c:a" preset.audio_codec
  ++ optArgs "-b:v" preset.video_bitrate
  ++ optArgs "-b:a" preset.audio_bitrate
  ++ optArgs "-pix_fmt" preset.pixel_format
  ++ (match preset.scale with
      | some s => ["-vf", "scale=" ++ s]
      | none => [])
  ++ extraIter.foldr (fun kv acc => kv.1 :: kv.2 :: acc) []

/-- The completion check at the end of `Transcoder::transcode_file`:
after the progress read loop finishes (whether or not it saw a
terminal `progress=end` snapshot), the run is declared a success iff
the process exit status is a success, the output path exists and the
output file is non-empty. -/
def transcode_file_result (progressLines : List String) (exitSuccess : Bool)
    (outputExists : Bool) (outputLen : Nat) : Except String Unit :=
  let loopRun := progressLoop progressLines []
  if exitSuccess = false then .error "FFmpeg process failed"
  else if outputExists = false then .error "Output file was not created"
  else if outputLen = 0 then .error "Output file is empty"
  else
    -- the loop result is not consulted: `loopRun.sawEnd` does not
    -- influence the outcome, exactly as in the source
    let _ := loopRun
    .ok ()

/-- C9: the progress parser finalizes a snapshot exactly on lines whose
key is `progress`, converting the microsecond-scaled `out_time_ms`
field to whole seconds and clearing the working record for the next
cycle.  The line sequence `frame=10`, `progress=continue`, `frame=20`,
`out_time_ms=2000000`, `progress=end` yields exactly two finalized
snapshots, the second with elapsed 2 seconds and phase `end`, after
which the read loop terminates: a further concrete run shows the loop
stops consuming lines after the terminal snapshot, and another shows
the working record really is cleared between cycles (a field set in
cycle one is absent from the cycle-two snapshot). -/
theorem c9_progress_snapshots :
    progressLoop ["frame=10", "progress=continue", "frame=20",
        "out_time_ms=2000000", "progress=end"] [] =
      ⟨[{ frame := some 10, progress := some "continue" },
        { frame := some 20, out_time_ms := some 2000000, progress := some "end" }],
       [2], true, []⟩ ∧
    elapsedSeconds ({ frame := some 20, out_time_ms := some 2000000,
                      progress := some "end" } : FFmpegProgress) = some 2 ∧
    -- the loop breaks on `progress=end`: the trailing line is left unread
    progressLoop ["progress=end", "frame=99"] [] =
      ⟨[{ progress := some "end" }], [], true, ["frame=99"]⟩ ∧
    -- the working record is cleared after a non-terminal snapshot:
    -- `fps` from the first cycle does not leak into the second snapshot
    progressLoop ["fps=30", "progress=continue", "progress=end"] [] =
      ⟨[{ fps := some 30, progress := some "continue" },
        { progress := some "end" }], [], true, []⟩ := by
  refine ⟨by decide, by decide, by decide, by decide⟩

/-- C5: evaluation of the completion check of
`Transcoder::transcode_file` on a progress stream that ends without
ever emitting `progress=end` (here the single line `frame=1`), with a
zero (successful) exit status and a non-empty output file.  The code
reports success, not failure: the loop result (`sawEnd = false`) is
never consulted by the completion check.  This contradicts the claim,
which requires such a run to be reported as a failure. -/
theorem c5_no_terminator_success :
    (progressLoop ["frame=1"] []).sawEnd = false ∧
    transcode_file_result ["frame=1"] true true 1 = .ok () :=
  ⟨by decide, rfl⟩

/-- C4: evaluation of the ffmpeg argument construction at a preset with
the two extra options `("-profile:v", "high")` then `("-preset",
"slow")` in defined order.  The Rust code iterates a
`std::collections::HashMap`, so the visit order is an arbitrary
permutation of the entries; under the (permitted) swapped order the
produced argument list has each key immediately followed by its value
and placed after the standard flags, but differs from the argument
list the claim requires (the preset's defined order).  The claim's
"in the preset's defined order" is therefore not guaranteed by the
code. -/
theorem c4_extra_options_unordered :
    List.Perm [("-preset", "slow"), ("-profile:v", "high")]
      (PresetConfig.extra_options
        { extra_options := [("-profile:v", "high"), ("-preset", "slow")] }) ∧
    build_ffmpeg_args "in.mov" "out.mp4"
        { extra_options := [("-profile:v", "high"), ("-preset", "slow")] }
        [("-preset", "slow"), ("-profile:v", "high")] =
      ["-v", "quiet", "-progress", "pipe:1", "-stats_period", "1.0",
       "-i", "in.mov", "-y", "out.mp4",
       "-preset", "slow", "-profile:v", "high"] ∧
    build_ffmpeg_args "in.mov" "out.mp4"
        { extra_options := [("-profile:v", "high"), ("-preset", "slow")] }
        [("-preset", "slow"), ("-profile:v", "high")] ≠
      build_ffmpeg_args "in.mov" "out.mp4"
        { extra_options := [("-profile:v", "high"), ("-preset", "slow")] }
        [("-profile:v", "high"), ("-preset", "slow")] := by
  refine ⟨by decide, by decide, by decide⟩

/-! ## Stability/validity gate (src/file_check.rs)

`wait_for_stable_size` polls the file's metadata once per second
(`check_interval = 1s`) for up to `timeout = 60s`; the poll at `t`
seconds after the start is modelled by `meta t`, returning the file
size or a metadata error.  `stability_threshold = 3s`. -/

/-- Auxiliary loop of `wait_for_stable_size`: `t` is the elapsed time
in seconds (= number of completed 1-second sleeps), `lastSize` the last
recorded size, `lastChange` the time the size was last recorded as
changed (initially the start time 0, not refreshed by the first
poll). -/
def wait_for_stable_size_aux (meta : Nat → Except Unit Nat) (t : Nat)
    (lastSize : Option Nat) (lastChange : Nat) : Except Unit Bool :=
  if _hlt : t < 60 then
    match meta t with
    | .error e => .error e
    | .ok cur =>
      match lastSize with
      | some s =>
        if s = cur then
          if 3 ≤ t - lastChange then .ok true
          else wait_for_stable_size_aux meta (t + 1) lastSize lastChange
        else wait_for_stable_size_aux meta (t + 1) (some cur) t
      | none => wait_for_stable_size_aux meta (t + 1) (some cur) lastChange
  else .ok false
termination_by 60 - t
decreasing_by all_goals omega

/-- Model of `wait_for_stable_size` (src/file_check.rs:53): `Ok true` when the
size settles, `Ok false` on timeout, `Err` on a metadata error. -/
def wait_for_stable_size (meta : Nat → Except Unit Nat) : Except Unit Bool :=
  wait_for_stable_size_aux meta 0 none 0

/-- Outcome of the external ffprobe duration probe as observed by
`is_file_valid` (file_check.rs:15-33): spawning the probe process can
itself fail (`Command::output()` returns `Err`, e.g. no ffprobe binary
— propagated by `?` as a hard error); or the probe runs and exits with
a non-success status; or its stdout does not parse as a number; or it
parses to a duration (an `f64`, modelled as an exact rational). -/
inductive ProbeOutcome
  | spawnError
  | failure
  | unparsable
  | duration (d : Rat)
  deriving DecidableEq

/-- Model of `is_file_valid` (src/file_check.rs:7): gate on `wait_for_stable_size`,
then on the duration probe.  A probe-spawn failure is a hard error
(`output().context(..)?`); a probe that ran but reported a non-success
status, unparsable output or a non-positive duration is `Ok false`;
`Ok(d) if d > 0.0` is valid. -/
def is_file_valid (meta : Nat → Except Unit Nat) (probe : ProbeOutcome) :
    Except Unit Bool :=
  match wait_for_stable_size meta with
  | .error e => .error e
  | .ok false => .ok false
  | .ok true =>
    match probe with
    | .spawnError => .error ()
    | .failure => .ok false
    | .unparsable => .ok false
    | .duration d => .ok (decide (0 < d))

/-- Modelled from the spec's words, for comparison with the code: the
file's size is unchanged for a continuous 3-second window of 1-second
polls ending at time `t` (four consecutive successful polls with equal
sizes). -/
def stableWindowEndingAt (meta : Nat → Except Unit Nat) (t : Nat) : Prop :=
  3 ≤ t ∧ ∃ v, meta (t - 3) = .ok v ∧ meta (t - 2) = .ok v ∧
    meta (t - 1) = .ok v ∧ meta t = .ok v

/-- Boolean form of a metadata error at time `t`. -/
def errB (meta : Nat → Except Unit Nat) (t : Nat) : Bool :=
  match meta t with
  | .error _ => true
  | .ok _ => false

/-- Boolean form of `stableWindowEndingAt`. -/
def windowB (meta : Nat → Except Unit Nat) (t : Nat) : Bool :=
  decide (3 ≤ t) &&
    (match meta (t - 3), meta (t - 2), meta (t - 1), meta t with
     | .ok a, .ok b, .ok c, .ok d => a == b && b == c && c == d
     | _, _, _, _ => false)

/-- A poll at `t` halts the wait loop: metadata error or settled size. -/
def haltB (meta : Nat → Except Unit Nat) (t : Nat) : Bool :=
  errB meta t || windowB meta t

/-- Declarative reference outcome of the wait loop from time `t` on:
the first halting poll in `[t, 60)` decides the result (error for a
metadata error, `Ok true` for a settled size), and reaching the
timeout without halting yields `Ok false`. -/
def specWaitFrom (meta : Nat → Except Unit Nat) (t : Nat) : Except Unit Bool :=
  match (List.range' t (60 - t)).find? (haltB meta) with
  | some u => if errB meta u then .error () else .ok true
  | none => .ok false

/-- The size a successful poll reports (0 as a dummy on errors). -/
def szOf (meta : Nat → Except Unit Nat) (t : Nat) : Nat :=
  match meta t with
  | .ok v => v
  | .error _ => 0

theorem errB_false_iff (meta : Nat → Except Unit Nat) (t : Nat) :
    errB meta t = false ↔ meta t = .ok (szOf meta t) := by
  unfold errB szOf
  cases h : meta t <;> simp

theorem windowB_eq_true_iff (meta : Nat → Except Unit Nat) (t : Nat) :
    windowB meta t = true ↔ stableWindowEndingAt meta t := by
  unfold windowB stableWindowEndingAt
  constructor
  · intro h
    simp only [Bool.and_eq_true, decide_eq_true_eq] at h
    obtain ⟨h3, hm⟩ := h
    refine ⟨h3, ?_⟩
    cases h0 : meta (t - 3) <;> cases h1 : meta (t - 2) <;>
      cases h2 : meta (t - 1) <;> cases h4 : meta t <;>
      simp [h0, h1, h2, h4] at hm ⊢
    omega
  · rintro ⟨h3, v, h0, h1, h2, h4⟩
    simp [h3, h0, h1, h2, h4]

/-- Invariant tying the loop state `(t, lastSize, lastChange)` to the
poll trace: all polls before `t` succeeded, `lastSize` records the
size seen at `t - 1`, the size is constant on `[lastChange, t - 1]`,
and `lastChange` is the start time or an actual change point. -/
structure WaitInv (meta : Nat → Except Unit Nat) (t : Nat) (ls : Option Nat)
    (lc : Nat) : Prop where
  hok : ∀ u, u < t → errB meta u = false
  hcase : (t = 0 ∧ ls = none ∧ lc = 0) ∨
    (1 ≤ t ∧ ls = some (szOf meta (t - 1)) ∧ lc ≤ t - 1 ∧
      (∀ u, lc ≤ u → u < t → szOf meta u = szOf meta (t - 1)) ∧
      (lc = 0 ∨ (1 ≤ lc ∧ szOf meta lc ≠ szOf meta (lc - 1))))

theorem specWaitFrom_succ (meta : Nat → Except Unit Nat) (t : Nat)
    (ht : t < 60) :
    specWaitFrom meta t =
      if haltB meta t then (if errB meta t then .error () else .ok true)
      else specWaitFrom meta (t + 1) := by
  unfold specWaitFrom
  rw [show 60 - t = (60 - (t + 1)) + 1 by omega, List.range']
  rw [List.find?_cons]
  cases hh : haltB meta t <;> simp [hh]

theorem specWaitFrom_last (meta : Nat → Except Unit Nat) :
    specWaitFrom meta 60 = .ok false := by
  unfold specWaitFrom
  simp

/-- The wait loop refines the declarative reference: from any loop
state consistent with the poll trace, the loop computes the
first-halting-poll outcome. -/
theorem waitAux_eq_specFrom (meta : Nat → Except Unit Nat) :
    ∀ n t ls lc, 60 - t = n → t ≤ 60 → WaitInv meta t ls lc →
      wait_for_stable_size_aux meta t ls lc = specWaitFrom meta t := by
  intro n
  induction n with
  | zero =>
    intro t ls lc hn ht _
    have ht60 : t = 60 := by omega
    subst ht60
    rw [specWaitFrom_last]
    unfold wait_for_stable_size_aux
    simp
  | succ k ih =>
    intro t ls lc hn ht hinv
    have ht60 : t < 60 := by omega
    rw [specWaitFrom_succ meta t ht60]
    cases hm : meta t with
    | error e =>
      have herr : errB meta t = true := by unfold errB; rw [hm]
      have hhalt : haltB meta t = true := by unfold haltB; rw [herr]; rfl
      rw [if_pos hhalt, if_pos herr]
      conv_lhs => rw [wait_for_stable_size_aux]
      rw [dif_pos ht60, hm]
    | ok cur =>
      have herr : errB meta t = false := by unfold errB; rw [hm]
      have hsz : szOf meta t = cur := by unfold szOf; rw [hm]
      obtain ⟨hok, hcase⟩ := hinv
      have hok1 : ∀ u, u < t + 1 → errB meta u = false := by
        intro u hu
        rcases Nat.lt_succ_iff_lt_or_eq.mp hu with h | h
        · exact hok u h
        · rw [h]; exact herr
      cases hls : ls with
      | none =>
        have hlz : t = 0 ∧ lc = 0 := by
          rcases hcase with ⟨h1, _, h3⟩ | ⟨_, h2, _⟩
          · exact ⟨h1, h3⟩
          · rw [hls] at h2; cases h2
        obtain ⟨ht0, hlc0⟩ := hlz
        have hwin : windowB meta t = false := by
          rw [ht0]; unfold windowB; simp
        have hhalt : haltB meta t = false := by
          unfold haltB; rw [herr, hwin]; rfl
        rw [if_neg (by rw [hhalt]; simp)]
        conv_lhs => rw [wait_for_stable_size_aux]
        rw [dif_pos ht60, hm]
        show wait_for_stable_size_aux meta (t + 1) (some cur) lc =
          specWaitFrom meta (t + 1)
        apply ih (t + 1) (some cur) lc (by omega) (by omega)
        refine ⟨hok1, Or.inr ⟨by omega, by simp [hsz], by omega, ?_, ?_⟩⟩
        · intro u hu1 hu2
          have hut : u = t := by omega
          rw [hut]
          simp
        · exact Or.inl hlc0
      | some s =>
        have hmain : 1 ≤ t ∧ s = szOf meta (t - 1) ∧ lc ≤ t - 1 ∧
            (∀ u, lc ≤ u → u < t → szOf meta u = szOf meta (t - 1)) ∧
            (lc = 0 ∨ (1 ≤ lc ∧ szOf meta lc ≠ szOf meta (lc - 1))) := by
          rcases hcase with ⟨_, h2, _⟩ | ⟨h1, h2, h3, h4, h5⟩
          · rw [hls] at h2; cases h2
          · rw [hls] at h2
            injection h2 with h2
            exact ⟨h1, h2, h3, h4, h5⟩
        obtain ⟨h1, h2, h3, h4, h5⟩ := hmain
        have hred : wait_for_stable_size_aux meta t (some s) lc =
            (if s = cur then
              if 3 ≤ t - lc then (.ok true : Except Unit Bool)
              else wait_for_stable_size_aux meta (t + 1) (some s) lc
            else wait_for_stable_size_aux meta (t + 1) (some cur) t) := by
          conv_lhs => rw [wait_for_stable_size_aux]
          rw [dif_pos ht60, hm]
        rw [hred]
        by_cases heq : s = cur
        · by_cases hth : 3 ≤ t - lc
          · -- size settled: the loop returns `Ok true`, and a stable
            -- window ends at `t`
            rw [if_pos heq, if_pos hth]
            have hval : ∀ u, lc ≤ u → u < t → meta u = .ok (szOf meta (t - 1)) := by
              intro u hu1 hu2
              have h := (errB_false_iff meta u).mp (hok u hu2)
              rw [h4 u hu1 hu2] at h
              exact h
            have hwin : stableWindowEndingAt meta t := by
              refine ⟨by omega, szOf meta (t - 1), ?_, ?_, ?_, ?_⟩
              · exact hval (t - 3) (by omega) (by omega)
              · exact hval (t - 2) (by omega) (by omega)
              · exact hval (t - 1) (by omega) (by omega)
              · rw [hm, heq.symm.trans h2]
            have hhalt : haltB meta t = true := by
              unfold haltB
              rw [(windowB_eq_true_iff meta t).mpr hwin]
              simp
            rw [if_pos hhalt, if_neg (by rw [herr]; simp)]
          · -- size unchanged but window not yet long enough: keep polling
            rw [if_pos heq, if_neg hth]
            have hwin : windowB meta t = false := by
              cases hw : windowB meta t
              · rfl
              exfalso
              obtain ⟨hw3, v, hv0, hv1, hv2, hv3⟩ :=
                (windowB_eq_true_iff meta t).mp hw
              have hsv : ∀ u, t - 3 ≤ u → u ≤ t → szOf meta u = v := by
                intro u hu1 hu2
                unfold szOf
                rcases (by omega : u = t - 3 ∨ u = t - 2 ∨ u = t - 1 ∨ u = t)
                    with h | h | h | h <;> rw [h] <;> simp [hv0, hv1, hv2, hv3]
              -- the last change point would have to lie inside the window
              rcases h5 with h5 | ⟨h51, h52⟩
              · omega
              · exact h52 ((hsv lc (by omega) (by omega)).trans
                  (hsv (lc - 1) (by omega) (by omega)).symm)
            have hhalt : haltB meta t = false := by
              unfold haltB; rw [herr, hwin]; rfl
            rw [if_neg (by rw [hhalt]; simp)]
            apply ih (t + 1) (some s) lc (by omega) (by omega)
            have hts : szOf meta t = szOf meta (t - 1) := by
              rw [hsz, ← heq, h2]
            refine ⟨hok1, Or.inr ⟨by omega, ?_, by omega, ?_, h5⟩⟩
            · simp only [Nat.add_sub_cancel]
              rw [hsz, heq]
            · intro u hu1 hu2
              simp only [Nat.add_sub_cancel]
              rcases Nat.lt_succ_iff_lt_or_eq.mp hu2 with h | h
              · rw [h4 u hu1 h, ← hts]
              · rw [h]
        · -- size changed: reset the change point and keep polling
          rw [if_neg heq]
          have hwin : windowB meta t = false := by
            cases hw : windowB meta t
            · rfl
            exfalso
            obtain ⟨hw3, v, hv0, hv1, hv2, hv3⟩ :=
              (windowB_eq_true_iff meta t).mp hw
            apply heq
            have hs1 : szOf meta (t - 1) = v := by unfold szOf; rw [hv2]
            have hcv : cur = v := by
              rw [hm] at hv3; injection hv3
            rw [h2, hs1, hcv]
          have hhalt : haltB meta t = false := by
            unfold haltB; rw [herr, hwin]; rfl
          rw [if_neg (by rw [hhalt]; simp)]
          apply ih (t + 1) (some cur) t (by omega) (by omega)
          refine ⟨hok1, Or.inr ⟨by omega, ?_, by omega, ?_, Or.inr ⟨by omega, ?_⟩⟩⟩
          · simp only [Nat.add_sub_cancel]
            rw [hsz]
          · intro u hu1 hu2
            have hut : u = t := by omega
            rw [hut]
            simp
          · rw [hsz, ← h2]
            exact fun hh => heq hh.symm

theorem wait_eq_spec (meta : Nat → Except Unit Nat) :
    wait_for_stable_size meta = specWaitFrom meta 0 :=
  waitAux_eq_specFrom meta 60 0 none 0 rfl (by omega)
    ⟨fun u hu => absurd hu (by omega), Or.inl ⟨rfl, rfl, rfl⟩⟩

theorem find?_range'_first {p : Nat → Bool} :
    ∀ n s t, s ≤ t → t < s + n → p t = true →
      (∀ u, s ≤ u → u < t → p u = false) →
      (List.range' s n).find? p = some t := by
  intro n
  induction n with
  | zero => intro s t h1 h2 _ _; omega
  | succ k ihn =>
    intro s t h1 h2 hp hmin
    rw [List.range']
    by_cases hst : s = t
    · subst hst
      exact List.find?_cons_of_pos _ hp
    · have hps : p s = false := hmin s (le_refl s) (by omega)
      rw [List.find?_cons_of_neg _ (by simp [hps])]
      exact ihn (s + 1) t (by omega) (by omega) hp
        (fun u hu1 hu2 => hmin u (by omega) hu2)

theorem find?_range'_spec {p : Nat → Bool} :
    ∀ n s t, (List.range' s n).find? p = some t →
      s ≤ t ∧ t < s + n ∧ p t = true ∧ ∀ u, s ≤ u → u < t → p u = false := by
  intro n
  induction n with
  | zero => intro s t h; simp [List.range'] at h
  | succ k ihn =>
    intro s t h
    rw [List.range'] at h
    cases hps : p s with
    | true =>
      rw [List.find?_cons_of_pos _ hps] at h
      injection h with h
      subst h
      exact ⟨le_refl s, by omega, hps, fun u h1 h2 => by omega⟩
    | false =>
      rw [List.find?_cons_of_neg _ (by simp [hps])] at h
      obtain ⟨ha, hb, hc, hd⟩ := ihn (s + 1) t h
      refine ⟨by omega, by omega, hc, fun u h1 h2 => ?_⟩
      rcases Nat.eq_or_lt_of_le h1 with h | h
      · rw [← h]; exact hps
      · exact hd u (by omega) h2

theorem windowB_eq_false_iff (meta : Nat → Except Unit Nat) (t : Nat) :
    windowB meta t = false ↔ ¬ stableWindowEndingAt meta t := by
  rw [← windowB_eq_true_iff]
  cases windowB meta t <;> simp

/-- The wait loop reports `Ok false` (timeout) when every poll
succeeds and no stable window ever ends within the 60 polls. -/
theorem wait_ok_false_of_no_halt (meta : Nat → Except Unit Nat)
    (hoks : ∀ t, t < 60 → errB meta t = false)
    (hnowin : ∀ t, t < 60 → ¬ stableWindowEndingAt meta t) :
    wait_for_stable_size meta = .ok false := by
  have hfind : (List.range' 0 60).find? (haltB meta) = none := by
    rw [List.find?_eq_none]
    intro x hx
    have hx60 : x < 60 := by
      have := List.mem_range'_1.mp hx
      omega
    unfold haltB
    rw [hoks x hx60, (windowB_eq_false_iff meta x).mpr (hnowin x hx60)]
    simp
  rw [wait_eq_spec]
  unfold specWaitFrom
  rw [show 60 - 0 = 60 from rfl, hfind]

/-- The wait loop reports a hard error iff some metadata poll fails
within the timeout, with every earlier poll succeeding and no stable
window ending before it. -/
theorem wait_error_iff (meta : Nat → Except Unit Nat) :
    wait_for_stable_size meta = .error () ↔
      ∃ t, t < 60 ∧ meta t = .error () ∧
        (∀ u, u < t → errB meta u = false) ∧
        (∀ u, u < t → ¬ stableWindowEndingAt meta u) := by
  constructor
  · intro herr
    rw [wait_eq_spec] at herr
    unfold specWaitFrom at herr
    cases hfind : (List.range' 0 (60 - 0)).find? (haltB meta) with
    | none => rw [hfind] at herr; cases herr
    | some u =>
      rw [hfind] at herr
      have hwe2 : (if errB meta u = true then (Except.error () : Except Unit Bool)
          else .ok true) = .error () := herr
      obtain ⟨_, hu60, hpu, humin⟩ := find?_range'_spec _ _ _ hfind
      have herru : errB meta u = true := by
        cases he : errB meta u
        · rw [he] at hwe2; simp at hwe2
        · rfl
      have hmu : meta u = .error () := by
        unfold errB at herru
        cases hmm : meta u with
        | error e => cases e; rfl
        | ok v => rw [hmm] at herru; cases herru
      refine ⟨u, by omega, hmu, ?_, ?_⟩
      · intro v hv
        have := humin v (by omega) hv
        unfold haltB at this
        exact (Bool.or_eq_false_iff.mp this).1
      · intro v hv
        have := humin v (by omega) hv
        unfold haltB at this
        exact (windowB_eq_false_iff meta v).mp (Bool.or_eq_false_iff.mp this).2
  · rintro ⟨t, ht60, hmt, hoks, hnowin⟩
    have hhaltt : haltB meta t = true := by
      unfold haltB errB
      rw [hmt]
      rfl
    have hfind : (List.range' 0 60).find? (haltB meta) = some t := by
      apply find?_range'_first 60 0 t (by omega) (by omega) hhaltt
      intro u _ hu
      unfold haltB
      rw [hoks u hu, (windowB_eq_false_iff meta u).mpr (hnowin u hu)]
      simp
    have herrt : errB meta t = true := by unfold errB; rw [hmt]
    rw [wait_eq_spec]
    unfold specWaitFrom
    rw [show 60 - 0 = 60 from rfl, hfind]
    show (if errB meta t = true then (Except.error () : Except Unit Bool)
      else .ok true) = .error ()
    rw [if_pos herrt]

/-- The wait loop reports `Ok true` (settled) iff a stable window ends
within the timeout with every earlier poll succeeding. -/
theorem wait_ok_true_iff (meta : Nat → Except Unit Nat) :
    wait_for_stable_size meta = .ok true ↔
      ∃ t, t < 60 ∧ stableWindowEndingAt meta t ∧
        (∀ u, u < t → errB meta u = false) := by
  constructor
  · intro hwt
    rw [wait_eq_spec] at hwt
    unfold specWaitFrom at hwt
    cases hfind : (List.range' 0 (60 - 0)).find? (haltB meta) with
    | none => rw [hfind] at hwt; exact nomatch hwt
    | some u =>
      rw [hfind] at hwt
      have hwt2 : (if errB meta u = true then (Except.error () : Except Unit Bool)
          else .ok true) = .ok true := hwt
      obtain ⟨_, hu60, hpu, humin⟩ := find?_range'_spec _ _ _ hfind
      have herru : errB meta u = false := by
        cases he : errB meta u
        · rfl
        · rw [if_pos he] at hwt2; exact nomatch hwt2
      have hwinu : windowB meta u = true := by
        unfold haltB at hpu
        rw [herru] at hpu
        simpa using hpu
      refine ⟨u, by omega, (windowB_eq_true_iff meta u).mp hwinu, ?_⟩
      intro v hv
      have := humin v (by omega) hv
      unfold haltB at this
      exact (Bool.or_eq_false_iff.mp this).1
  · rintro ⟨t, ht60, hwint, hoks⟩
    have hhaltt : haltB meta t = true := by
      unfold haltB
      rw [(windowB_eq_true_iff meta t).mpr hwint]
      simp
    have hfind : ∃ u, (List.range' 0 60).find? (haltB meta) = some u := by
      cases hf : (List.range' 0 60).find? (haltB meta) with
      | none =>
        exfalso
        have := List.find?_eq_none.mp hf t (List.mem_range'_1.mpr ⟨by omega, by omega⟩)
        exact this hhaltt
      | some u => exact ⟨u, rfl⟩
    obtain ⟨u, hfu⟩ := hfind
    obtain ⟨_, hu60, hpu, humin⟩ := find?_range'_spec _ _ _ hfu
    have hut : u ≤ t := by
      by_contra hgt
      have := humin t (by omega) (by omega)
      rw [hhaltt] at this
      cases this
    have herru : errB meta u = false := by
      rcases Nat.eq_or_lt_of_le hut with h | h
      · subst h
        obtain ⟨_, v, _, _, _, hv⟩ := hwint
        unfold errB
        rw [hv]
      · exact hoks u h
    rw [wait_eq_spec]
    unfold specWaitFrom
    rw [show 60 - 0 = 60 from rfl, hfu]
    show (if errB meta u = true then (Except.error () : Except Unit Bool)
      else .ok true) = .ok true
    rw [if_neg (by rw [herru]; simp)]

/-- C6 counterexample: the claim says the gate returns a hard error
EXACTLY when reading filesystem metadata fails during polling.  But
`is_file_valid` also propagates a hard error when the ffprobe duration
probe cannot be spawned (`Command::output().context(..)?`,
file_check.rs:15-24): on a file whose size is constantly 7 (every
metadata poll succeeds, the size settles at `t = 3`) with a failing
probe spawn, the gate hard-errors although no metadata poll ever
failed. -/
theorem c6_counterexample_probe_spawn :
    is_file_valid (fun _ => .ok 7) .spawnError = .error () ∧
    (∀ t, errB (fun _ => .ok 7) t = false) := by
  constructor
  · have hwait : wait_for_stable_size (fun _ => .ok 7) = .ok true :=
      (wait_ok_true_iff (fun _ => .ok 7)).mpr
        ⟨3, by omega, ⟨by omega, 7, rfl, rfl, rfl, rfl⟩, fun u _ => rfl⟩
    unfold is_file_valid
    rw [hwait]
  · intro t
    rfl

/-- C6 amended: the validity gate returns `Ok false` ("not valid", a
normal outcome) when the size is never unchanged for a continuous
3-second window within the 60-second timeout of 1-second polls; it
returns a hard error exactly when a metadata poll fails (before any
settling) or when, after the size has settled, spawning the external
duration probe fails; and once the size settles (and the probe can be
spawned), it returns `Ok true` ("valid") iff the probe succeeds and
reports a duration > 0. -/
theorem c6_validity_gate_amended (meta : Nat → Except Unit Nat)
    (probe : ProbeOutcome) :
    ((∀ t, t < 60 → errB meta t = false) →
      (∀ t, t < 60 → ¬ stableWindowEndingAt meta t) →
      is_file_valid meta probe = .ok false) ∧
    (is_file_valid meta probe = .error () ↔
      ((∃ t, t < 60 ∧ meta t = .error () ∧
          (∀ u, u < t → errB meta u = false) ∧
          (∀ u, u < t → ¬ stableWindowEndingAt meta u)) ∨
        (probe = .spawnError ∧ ∃ t, t < 60 ∧ stableWindowEndingAt meta t ∧
          (∀ u, u < t → errB meta u = false)))) ∧
    ((∃ t, t < 60 ∧ stableWindowEndingAt meta t ∧
        (∀ u, u < t → errB meta u = false)) →
      (is_file_valid meta probe = .ok true ↔ ∃ d, probe = .duration d ∧ 0 < d)) := by
  refine ⟨?_, ?_, ?_⟩
  · -- no settling, no errors: `Ok false`
    intro hoks hnowin
    unfold is_file_valid
    rw [wait_ok_false_of_no_halt meta hoks hnowin]
  · -- hard error: metadata failure, or probe-spawn failure after settling
    constructor
    · intro herr
      unfold is_file_valid at herr
      cases hwres : wait_for_stable_size meta with
      | error e =>
        cases e
        exact Or.inl ((wait_error_iff meta).mp hwres)
      | ok b =>
        rw [hwres] at herr
        cases b
        · exact nomatch herr
        · refine Or.inr ⟨?_, (wait_ok_true_iff meta).mp hwres⟩
          cases probe with
          | spawnError => rfl
          | failure => exact nomatch herr
          | unparsable => exact nomatch herr
          | duration d => exact nomatch herr
    · rintro (hmeta | ⟨hpr, hsettle⟩)
      · have hwe := (wait_error_iff meta).mpr hmeta
        unfold is_file_valid
        rw [hwe]
      · have hwt := (wait_ok_true_iff meta).mpr hsettle
        subst hpr
        unfold is_file_valid
        rw [hwt]
  · -- settled: validity is decided by the probe
    intro hsettle
    have hwt := (wait_ok_true_iff meta).mpr hsettle
    unfold is_file_valid
    rw [hwt]
    cases probe with
    | spawnError =>
      constructor
      · intro h; exact nomatch h
      · rintro ⟨d, hd, _⟩; cases hd
    | failure =>
      constructor
      · intro h; exact nomatch h
      · rintro ⟨d, hd, _⟩; cases hd
    | unparsable =>
      constructor
      · intro h; exact nomatch h
      · rintro ⟨d, hd, _⟩; cases hd
    | duration d =>
      constructor
      · intro h
        refine ⟨d, rfl, ?_⟩
        have := congrArg (fun x => match x with | Except.ok b => b | _ => false) h
        simpa using this
      · rintro ⟨e, he, hpos⟩
        injection he with he
        subst he
        simp [hpos]

/-- Closed witness for the amended C6: a file whose size is the
constant 7 settles (the stable window ends at `t = 3`), every poll
succeeds, the probe spawns and reports duration 5 > 0, so the gate
reports "valid"; and with a failing probe spawn on the same polls the
gate reports the hard error the amendment describes. -/
theorem c6_validity_gate_amended_witness :
    is_file_valid (fun _ => .ok 7) (.duration 5) = .ok true ∧
    is_file_valid (fun _ => .ok 7) .spawnError = .error () := by
  have hs : ∃ t, t < 60 ∧ stableWindowEndingAt (fun _ => .ok 7) t ∧
      (∀ u, u < t → errB (fun _ => .ok 7) u = false) :=
    ⟨3, by omega, ⟨by omega, 7, rfl, rfl, rfl, rfl⟩, fun u _ => rfl⟩
  constructor
  · exact ((c6_validity_gate_amended (fun _ => .ok 7) (.duration 5)).2.2 hs).mpr
      ⟨5, rfl, by norm_num⟩
  · exact (c6_validity_gate_amended (fun _ => .ok 7) .spawnError).2.1.mpr
      (Or.inr ⟨rfl, hs⟩)

/-! ## Submit (`Transcoder::process_file`, src/transcoder.rs:210)

`find_matching_input` canonicalizes paths through the filesystem, so
its outcome is passed in as the oracle `matching`.  The queue mutex
makes the membership test and the push one atomic block, and the
active-set lookup precedes it, exactly as in the source. -/

structure ProcessFileRun where
  queue : List String
  active : List String
  signals : Nat
  ret : Except String Unit

/-- Model of `Transcoder::process_file`: no-op on a path with no matching input,
on an already-active path, and on an already-queued path; otherwise
push to the queue tail and send one wake-up on the queue channel.  The
active set is never modified.  (The only fallible step, the channel
send, cannot fail in the program: the receiver is held forever by the
queue processor.) -/
def process_file (matching : Option InputConfig) (active queue : List String)
    (p : String) : ProcessFileRun :=
  match matching with
  | none => ⟨queue, active, 0, .ok ()⟩
  | some _ =>
    if active.contains p then ⟨queue, active, 0, .ok ()⟩
    else if queue.contains p then ⟨queue, active, 0, .ok ()⟩
    else ⟨queue ++ [p], active, 1, .ok ()⟩

/-- C7: `process_file` returns success in every non-error case and is a
no-op (queue and active set unchanged, no wake-up posted) when the path
has no matching InputSpec, is already active, or is already queued;
otherwise it appends the path exactly once to the queue tail and posts
exactly one wake-up signal. -/
theorem c7_submit_idempotent (matching : Option InputConfig)
    (active queue : List String) (p : String) :
    (process_file matching active queue p).ret = .ok () ∧
    (process_file matching active queue p).active = active ∧
    ((matching = none ∨ p ∈ active ∨ p ∈ queue) →
      (process_file matching active queue p).queue = queue ∧
      (process_file matching active queue p).signals = 0) ∧
    (matching ≠ none → p ∉ active → p ∉ queue →
      (process_file matching active queue p).queue = queue ++ [p] ∧
      (process_file matching active queue p).signals = 1 ∧
      (process_file matching active queue p).queue.count p = queue.count p + 1) := by
  cases matching with
  | none => exact ⟨rfl, rfl, fun _ => ⟨rfl, rfl⟩, fun h => absurd rfl h⟩
  | some ic =>
    unfold process_file
    by_cases ha : p ∈ active
    · rw [if_pos (by simpa using ha)]
      refine ⟨rfl, rfl, fun _ => ⟨rfl, rfl⟩, fun _ hna _ => absurd ha hna⟩
    · rw [if_neg (by simpa using ha)]
      by_cases hq : p ∈ queue
      · rw [if_pos (by simpa using hq)]
        refine ⟨rfl, rfl, fun _ => ⟨rfl, rfl⟩, fun _ _ hnq => absurd hq hnq⟩
      · rw [if_neg (by simpa using hq)]
        refine ⟨rfl, rfl, ?_, fun _ _ _ => ⟨rfl, rfl, ?_⟩⟩
        · rintro (h | h | h)
          · cases h
          · exact absurd h ha
          · exact absurd h hq
        · rw [List.count_append]
          simp

/-- Closed witness for C7: a fresh path "a.mov" with a matching input is
appended once to the tail of the queue ["b.mov"] and one wake-up is
posted; submitting the already-queued "b.mov" is a no-op. -/
theorem c7_submit_idempotent_witness :
    (process_file (some ⟨"/in", ["mov"], "p", "o"⟩) [] ["b.mov"] "a.mov").queue =
      ["b.mov", "a.mov"] ∧
    (process_file (some ⟨"/in", ["mov"], "p", "o"⟩) [] ["b.mov"] "a.mov").signals = 1 ∧
    (process_file (some ⟨"/in", ["mov"], "p", "o"⟩) [] ["b.mov"] "b.mov").queue =
      ["b.mov"] ∧
    (process_file (some ⟨"/in", ["mov"], "p", "o"⟩) [] ["b.mov"] "b.mov").signals = 0 := by
  refine ⟨?_, ?_, ?_, ?_⟩
  · exact (c7_submit_idempotent (some ⟨"/in", ["mov"], "p", "o"⟩) [] ["b.mov"]
      "a.mov").2.2.2 (by simp) (by simp) (by decide) |>.1
  · exact (c7_submit_idempotent (some ⟨"/in", ["mov"], "p", "o"⟩) [] ["b.mov"]
      "a.mov").2.2.2 (by simp) (by simp) (by decide) |>.2.1
  · exact (c7_submit_idempotent (some ⟨"/in", ["mov"], "p", "o"⟩) [] ["b.mov"]
      "b.mov").2.2.1 (by decide) |>.1
  · exact (c7_submit_idempotent (some ⟨"/in", ["mov"], "p", "o"⟩) [] ["b.mov"]
      "b.mov").2.2.1 (by decide) |>.2

/-! ## Per-file pipeline (`Transcoder::process_file_internal` and the
worker body of `Transcoder::spawn_file_processor`, src/transcoder.rs) -/

/-- Rust `Path::file_name`: the last `/`-separated component. -/
def file_name (p : String) : String :=
  (((splitOnChar '/' p.data).getLast?).getD []).asString

/-- Rust `Path::file_stem`: the file name up to the last `.`; the whole
name when there is no `.` or when the only `.` is the leading one. -/
def file_stem (p : String) : Option String :=
  let n := (file_name p).data
  if n.isEmpty then none
  else
    match splitOnChar '.' n with
    | [] => none
    | [s] => some s.asString
    | parts =>
      let pre := String.intercalate "." (parts.dropLast.map List.asString)
      if pre.data.isEmpty then some n.asString else some pre

/-- Rust `str::replace`: replace every non-overlapping occurrence of
`pat` (non-empty at the call sites), scanning left to right.  The fuel
argument (instantiated with the length of the scanned list, which
bounds the number of steps) keeps the recursion structural so that the
function evaluates inside the kernel. -/
def replaceCharsAux (pat rep : List Char) : Nat → List Char → List Char
  | 0, l => l
  | _ + 1, [] => []
  | fuel + 1, c :: cs =>
    if pat ≠ [] ∧ pat.isPrefixOf (c :: cs) then
      rep ++ replaceCharsAux pat rep fuel (cs.drop (pat.length - 1))
    else c :: replaceCharsAux pat rep fuel cs

def replaceChars (pat rep l : List Char) : List Char :=
  replaceCharsAux pat rep l.length l

def replaceStr (s pat rep : String) : String :=
  (replaceChars pat.data rep.data s.data).asString

/-- Model of `Transcoder::create_output_path`: replace the literal `{filename}`
in the output's filename template by the input's stem and join
`outputDir / "<renderedName>.<container>"`. -/
def create_output_path (input_path : String) (oc : OutputConfig) :
    Except String String :=
  match file_stem input_path with
  | none => .error "Failed to get file stem"
  | some stem =>
    .ok (oc.path ++ "/" ++ (replaceStr oc.filename_template "{filename}" stem)
      ++ "." ++ oc.container)

/-- Model of `HashMap::get` on the preset/output tables. -/
def lookupByName (m : List (String × α)) (k : String) : Option α :=
  (m.find? (fun kv => kv.1 == k)).map (fun kv => kv.2)

/-- Externally visible filesystem/process effects of the pipeline. -/
inductive FileEffect
  | createDirAll (dir : String)
  | invokeFFmpeg (input output : String)
  | removeOutput (output : String)
  deriving DecidableEq, Repr

structure InternalRun where
  effects : List FileEffect
  ret : Except String Unit

/-- Rust `Path::parent` of the computed output path (effect label for
`std::fs::create_dir_all`). -/
def parent_dir (p : String) : Option String :=
  let parts := splitOnChar '/' p.data
  if parts.length ≤ 1 then none
  else some (String.intercalate "/" (parts.dropLast.map List.asString))

/-- Model of `Transcoder::process_file_internal`: validity gate, then InputSpec
match, preset/output lookups, output-path construction, output-exists
skip, output-directory creation, and the transcode invocation with
partial-output cleanup on its failure.  `validity` is the outcome of
`file_check::is_file_valid`, `output_exists` whether the computed
output path exists at the skip check, `transcode` the outcome of
`Transcoder::transcode_file`, and `output_exists_after` whether the
output path exists when a failed transcode is cleaned up. -/
def process_file_internal (validity : Except String Bool)
    (matching : Option InputConfig) (presets : List (String × PresetConfig))
    (outputs : List (String × OutputConfig)) (input_path : String)
    (output_exists : Bool) (transcode : Except String Unit)
    (output_exists_after : Bool) : InternalRun :=
  match validity with
  | .error e => ⟨[], .error e⟩
  | .ok false =>
    ⟨[], .error ("File is not valid or still being copied: " ++ input_path)⟩
  | .ok true =>
    match matching with
    | none => ⟨[], .error "No matching input configuration found"⟩
    | some ic =>
      match lookupByName presets ic.preset with
      | none => ⟨[], .error ("Preset not found: " ++ ic.preset)⟩
      | some _ =>
        match lookupByName outputs ic.output with
        | none => ⟨[], .error ("Output not found: " ++ ic.output)⟩
        | some oc =>
          match create_output_path input_path oc with
          | .error e => ⟨[], .error e⟩
          | .ok outPath =>
            if output_exists then ⟨[], .ok ()⟩
            else
              let dirEffs := match parent_dir outPath with
                | some d => [FileEffect.createDirAll d]
                | none => []
              match transcode with
              | .ok () => ⟨dirEffs ++ [.invokeFFmpeg input_path outPath], .ok ()⟩
              | .error e =>
                ⟨dirEffs ++ [.invokeFFmpeg input_path outPath] ++
                  (if output_exists_after then [.removeOutput outPath] else []),
                 .error e⟩

/-- The error arm of the worker in `Transcoder::spawn_file_processor`
(src/transcoder.rs:166): when the pipeline failed and the output path
resolved, delete the file at the output path if one exists. -/
def worker_error_cleanup (output_path_result : Except String String)
    (exists_at_cleanup : Bool) : List FileEffect :=
  match output_path_result with
  | .ok p => if exists_at_cleanup then [.removeOutput p] else []
  | .error _ => []

/-- The worker body of `Transcoder::spawn_file_processor` after the
permit is acquired: run the pipeline; on success no further effect; on
any error run the output cleanup (and then, when the error message
marks the transient "not valid" case, schedule a re-submission). -/
def spawn_worker_effects (output_path_result : Except String String)
    (run : InternalRun) (exists_at_cleanup : Bool) : List FileEffect × Bool :=
  match run.ret with
  | .ok () => (run.effects, false)
  | .error e =>
    (run.effects ++ worker_error_cleanup output_path_result exists_at_cleanup,
     containsSubstring e "not valid or still being copied")

/-- C8: when a valid job reaches the output-exists check and a file
already exists at the computed output path, the job completes as a
success, the transcode tool is invoked zero times, and no filesystem
effect touches the existing output (it is never overwritten or
deleted), including in the worker's error arm, which is not taken. -/
theorem c8_output_exists_noop (ic : InputConfig)
    (presets : List (String × PresetConfig))
    (outputs : List (String × OutputConfig)) (input_path : String)
    (pr : PresetConfig) (oc : OutputConfig) (outPath : String)
    (transcode : Except String Unit) (after : Bool)
    (oput : Except String String) (cleanupExists : Bool)
    (hp : lookupByName presets ic.preset = some pr)
    (ho : lookupByName outputs ic.output = some oc)
    (hcop : create_output_path input_path oc = .ok outPath) :
    (process_file_internal (.ok true) (some ic) presets outputs input_path
      true transcode after).ret = .ok () ∧
    (process_file_internal (.ok true) (some ic) presets outputs input_path
      true transcode after).effects = [] ∧
    (spawn_worker_effects oput
      (process_file_internal (.ok true) (some ic) presets outputs input_path
        true transcode after) cleanupExists).1 = [] := by
  have hrun : process_file_internal (.ok true) (some ic) presets outputs
      input_path true transcode after = ⟨[], .ok ()⟩ := by
    simp only [process_file_internal, hp, ho, hcop]
    exact if_pos trivial
  rw [hrun]
  exact ⟨rfl, rfl, rfl⟩

/-- Closed witness for C8 at a concrete configuration: input
`/in/clip.mov`, preset `std`, output directory `/out` with template
`{filename}_encoded` and container `mp4`; the output
`/out/clip_encoded.mp4` already exists. -/
theorem c8_output_exists_noop_witness :
    (process_file_internal (.ok true) (some ⟨"/in", ["mov"], "std", "o"⟩)
      [("std", {})] [("o", ⟨"/out", "{filename}_encoded", "mp4"⟩)]
      "/in/clip.mov" true (.ok ()) false).ret = .ok () ∧
    (process_file_internal (.ok true) (some ⟨"/in", ["mov"], "std", "o"⟩)
      [("std", {})] [("o", ⟨"/out", "{filename}_encoded", "mp4"⟩)]
      "/in/clip.mov" true (.ok ()) false).effects = [] := by
  have h := c8_output_exists_noop ⟨"/in", ["mov"], "std", "o"⟩
    [("std", {})] [("o", ⟨"/out", "{filename}_encoded", "mp4"⟩)]
    "/in/clip.mov" {} ⟨"/out", "{filename}_encoded", "mp4"⟩
    "/out/clip_encoded.mp4" (.ok ()) false (.ok "/out/clip_encoded.mp4") false
    rfl rfl rfl
  exact ⟨h.1, h.2.1⟩

/-- C10: whenever the per-file pipeline returns any error for a path
(including the transient "not valid" outcome, which is raised before
the output-exists skip, i.e. independently of `output_exists`), the
worker deletes a file already present at the computed output path
whenever the output path resolved.  In particular a pre-existing
completed output can be deleted by a transient failure of its input. -/
theorem c10_error_deletes_existing_output
    (matching : Option InputConfig) (presets : List (String × PresetConfig))
    (outputs : List (String × OutputConfig)) (input_path outPath : String)
    (validity : Except String Bool) (output_exists : Bool)
    (transcode : Except String Unit) (after : Bool) (e : String)
    (hrun : (process_file_internal validity matching presets outputs input_path
      output_exists transcode after).ret = .error e) :
    FileEffect.removeOutput outPath ∈
      (spawn_worker_effects (.ok outPath)
        (process_file_internal validity matching presets outputs input_path
          output_exists transcode after) true).1 ∧
    -- the "not valid" outcome is an error regardless of `output_exists`
    (∀ b : Bool,
      (process_file_internal (.ok false) matching presets outputs input_path
        b transcode after).ret =
        .error ("File is not valid or still being copied: " ++ input_path)) := by
  constructor
  · unfold spawn_worker_effects
    rw [hrun]
    unfold worker_error_cleanup
    simp
  · intro b
    unfold process_file_internal
    rfl

/-- Closed witness for C10: a transiently invalid input `/in/clip.mov`
whose completed output `/out/clip_encoded.mp4` already exists; the
worker's error arm deletes that pre-existing output. -/
theorem c10_error_deletes_existing_output_witness :
    FileEffect.removeOutput "/out/clip_encoded.mp4" ∈
      (spawn_worker_effects (.ok "/out/clip_encoded.mp4")
        (process_file_internal (.ok false) (some ⟨"/in", ["mov"], "std", "o"⟩)
          [("std", {})] [("o", ⟨"/out", "{filename}_encoded", "mp4"⟩)]
          "/in/clip.mov" true (.ok ()) false) true).1 :=
  (c10_error_deletes_existing_output (some ⟨"/in", ["mov"], "std", "o"⟩)
    [("std", {})] [("o", ⟨"/out", "{filename}_encoded", "mp4"⟩)]
    "/in/clip.mov" "/out/clip_encoded.mp4" (.ok false) true (.ok ()) false
    ("File is not valid or still being copied: " ++ "/in/clip.mov") rfl).1

/-! ## Job system transition model (src/transcoder.rs)

A small-step model of the concurrent job system.  Paths are abstracted
to `Nat`.  Each transition is one atomic shared-state operation of the
source:

* submitters run `Transcoder::process_file` in two shared-state steps
  (the `active_jobs.contains_key` read, then the mutex-protected
  queue-membership test and push);
* the single queue-processor task (`start_queue_processor` /
  `process_queued_files`) pops under the queue mutex, reads
  `active_jobs`, and — in `spawn_file_processor` — inserts the active
  marker and spawns a worker;
* a worker acquires one semaphore permit (`Semaphore::new(K)`),
  runs the pipeline (outcome: done = success or permanent failure, or
  the transient "not valid" failure), on the transient outcome pushes
  the path back onto the queue (`requeue_file`) *before* removing its
  active marker, then removes the marker and finally drops the permit —
  in exactly the source's order of statements.

The wake-up channel is abstracted away: the dispatcher may pop whenever
the queue is non-empty (every push in the source is followed by a
send on the wake-up channel).  The `acquire_owned` error branch of
`spawn_file_processor` is unreachable (the semaphore is never closed)
and is not modelled. -/

abbrev JPath := Nat

inductive WorkerPC
  | acquiring   -- before `job_semaphore.acquire_owned`
  | running     -- holding a permit, running `process_file_internal`
  | requeueing  -- transient failure: about to run `requeue_file`
  | removing    -- about to run `active_jobs.remove`
  | releasing   -- about to `drop(permit)`
  deriving DecidableEq, Repr

structure Worker where
  path : JPath
  pc : WorkerPC
  deriving DecidableEq, Repr

inductive SubPC
  | checkActive  -- about to read `active_jobs.contains_key`
  | enqueue      -- about to lock the queue, test membership and push
  deriving DecidableEq, Repr

structure Submitter where
  path : JPath
  hasMatch : Bool  -- whether `find_matching_input` returns `Some`
  pc : SubPC
  deriving DecidableEq, Repr

inductive DispPC
  | waiting              -- blocked on the wake-up channel / popping
  | checking (p : JPath)   -- popped `p`, about to read `active_jobs`
  | activating (p : JPath) -- `p` not active: about to insert and spawn
  deriving DecidableEq, Repr

structure SysState where
  queue : List JPath
  active : List JPath
  permits : Nat
  disp : DispPC
  workers : List Worker
  subs : List Submitter
  deriving DecidableEq, Repr

def initState : SysState := ⟨[], [], 0, .waiting, [], []⟩

/-- One atomic step of the job system with `maxParallelJobs = K`. -/
inductive Step (K : Nat) : SysState → SysState → Prop
  | newSubmit (s : SysState) (p : JPath) (m : Bool) :
      Step K s { s with subs := ⟨p, m, .checkActive⟩ :: s.subs }
  | subNoMatch (s : SysState) (l1 l2 : List Submitter) (p : JPath)
      (hs : s.subs = l1 ++ ⟨p, false, .checkActive⟩ :: l2) :
      Step K s { s with subs := l1 ++ l2 }
  | subActiveHit (s : SysState) (l1 l2 : List Submitter) (p : JPath)
      (hs : s.subs = l1 ++ ⟨p, true, .checkActive⟩ :: l2)
      (hin : p ∈ s.active) :
      Step K s { s with subs := l1 ++ l2 }
  | subCheckNeg (s : SysState) (l1 l2 : List Submitter) (p : JPath)
      (hs : s.subs = l1 ++ ⟨p, true, .checkActive⟩ :: l2)
      (hnin : p ∉ s.active) :
      Step K s { s with subs := l1 ++ ⟨p, true, .enqueue⟩ :: l2 }
  | subEnqueueDup (s : SysState) (l1 l2 : List Submitter) (p : JPath)
      (hs : s.subs = l1 ++ ⟨p, true, .enqueue⟩ :: l2)
      (hq : p ∈ s.queue) :
      Step K s { s with subs := l1 ++ l2 }
  | subEnqueuePush (s : SysState) (l1 l2 : List Submitter) (p : JPath)
      (hs : s.subs = l1 ++ ⟨p, true, .enqueue⟩ :: l2)
      (hq : p ∉ s.queue) :
      Step K s { s with queue := s.queue ++ [p], subs := l1 ++ l2 }
  | dispPop (s : SysState) (p : JPath) (rest : List JPath)
      (hd : s.disp = .waiting) (hq : s.queue = p :: rest) :
      Step K s { s with queue := rest, disp := .checking p }
  | dispSkip (s : SysState) (p : JPath)
      (hd : s.disp = .checking p) (hin : p ∈ s.active) :
      Step K s { s with disp := .waiting }
  | dispCheckNeg (s : SysState) (p : JPath)
      (hd : s.disp = .checking p) (hnin : p ∉ s.active) :
      Step K s { s with disp := .activating p }
  | dispActivate (s : SysState) (p : JPath)
      (hd : s.disp = .activating p) :
      Step K s { s with active := p :: s.active,
                        workers := ⟨p, .acquiring⟩ :: s.workers,
                        disp := .waiting }
  | wAcquire (s : SysState) (l1 l2 : List Worker) (p : JPath)
      (hw : s.workers = l1 ++ ⟨p, .acquiring⟩ :: l2)
      (hK : s.permits < K) :
      Step K s { s with permits := s.permits + 1,
                        workers := l1 ++ ⟨p, .running⟩ :: l2 }
  | wRunDone (s : SysState) (l1 l2 : List Worker) (p : JPath)
      (hw : s.workers = l1 ++ ⟨p, .running⟩ :: l2) :
      Step K s { s with workers := l1 ++ ⟨p, .removing⟩ :: l2 }
  | wRunTransient (s : SysState) (l1 l2 : List Worker) (p : JPath)
      (hw : s.workers = l1 ++ ⟨p, .running⟩ :: l2) :
      Step K s { s with workers := l1 ++ ⟨p, .requeueing⟩ :: l2 }
  | wRequeue (s : SysState) (l1 l2 : List Worker) (p : JPath)
      (hw : s.workers = l1 ++ ⟨p, .requeueing⟩ :: l2) :
      Step K s { s with queue := s.queue ++ [p],
                        workers := l1 ++ ⟨p, .removing⟩ :: l2 }
  | wRemove (s : SysState) (l1 l2 : List Worker) (p : JPath)
      (hw : s.workers = l1 ++ ⟨p, .removing⟩ :: l2) :
      Step K s { s with active := s.active.erase p,
                        workers := l1 ++ ⟨p, .releasing⟩ :: l2 }
  | wRelease (s : SysState) (l1 l2 : List Worker) (p : JPath)
      (hw : s.workers = l1 ++ ⟨p, .releasing⟩ :: l2) :
      Step K s { s with permits := s.permits - 1, workers := l1 ++ l2 }

/-- States reachable from the idle initial state. -/
def Reachable (K : Nat) (s : SysState) : Prop :=
  Relation.ReflTransGen (Step K) initState s

/-- A worker owns its path's active marker from its spawn until its
`active_jobs.remove` has run. -/
def owns (w : Worker) : Bool :=
  match w.pc with
  | .releasing => false
  | _ => true

/-- A worker holds a semaphore permit from `acquire_owned` until
`drop(permit)`. -/
def holdsPermit (w : Worker) : Bool :=
  match w.pc with
  | .acquiring => false
  | _ => true

/-- A worker is inside the pipeline (where the external ffmpeg process
runs) exactly in the `running` phase. -/
def isRunning (w : Worker) : Bool :=
  match w.pc with
  | .running => true
  | _ => false

theorem filter_len_middle {α : Type} (q : α → Bool) (l1 l2 : List α) (a : α) :
    ((l1 ++ a :: l2).filter q).length =
      (l1.filter q).length + (if q a then 1 else 0) + (l2.filter q).length := by
  rw [List.filter_append, List.length_append, List.filter_cons]
  cases hqa : q a
  · simp
  · simp
    omega

/-- Inductive invariant of the job system: the active set has no
duplicate entries; each path's active-marker count equals the number of
workers that own it; the used-permit count equals the number of workers
holding a permit and never exceeds `K`; and a path the dispatcher is
about to activate is not yet active. -/
structure Inv (K : Nat) (s : SysState) : Prop where
  activeNodup : s.active.Nodup
  ownersEq : ∀ p, s.active.count p =
    (s.workers.filter (fun w => w.path == p && owns w)).length
  permitsEq : s.permits = (s.workers.filter holdsPermit).length
  permitsLe : s.permits ≤ K
  dispFresh : ∀ p, s.disp = .activating p → p ∉ s.active

theorem inv_init (K : Nat) : Inv K initState :=
  ⟨List.nodup_nil, fun _ => rfl, rfl, Nat.zero_le K, fun _ h => nomatch h⟩

theorem filter_len_cons {α : Type} (q : α → Bool) (a : α) (l : List α) :
    ((a :: l).filter q).length = (if q a then 1 else 0) + (l.filter q).length := by
  rw [List.filter_cons]
  cases q a <;> simp [Nat.add_comm]

theorem inv_step {K : Nat} {s s2 : SysState} (hinv : Inv K s)
    (hstep : Step K s s2) : Inv K s2 := by
  obtain ⟨hnd, hown, hperm, hple, hfresh⟩ := hinv
  cases hstep with
  | newSubmit p m => exact ⟨hnd, hown, hperm, hple, hfresh⟩
  | subNoMatch l1 l2 p hs => exact ⟨hnd, hown, hperm, hple, hfresh⟩
  | subActiveHit l1 l2 p hs hin => exact ⟨hnd, hown, hperm, hple, hfresh⟩
  | subCheckNeg l1 l2 p hs hnin => exact ⟨hnd, hown, hperm, hple, hfresh⟩
  | subEnqueueDup l1 l2 p hs hq => exact ⟨hnd, hown, hperm, hple, hfresh⟩
  | subEnqueuePush l1 l2 p hs hq => exact ⟨hnd, hown, hperm, hple, hfresh⟩
  | dispPop p rest hd hq =>
    exact ⟨hnd, hown, hperm, hple, fun _ h => nomatch h⟩
  | dispSkip p hd hin =>
    exact ⟨hnd, hown, hperm, hple, fun _ h => nomatch h⟩
  | dispCheckNeg p hd hnin =>
    refine ⟨hnd, hown, hperm, hple, fun p2 h => ?_⟩
    dsimp only at h
    injection h with h
    rw [← h]
    exact hnin
  | dispActivate p hd =>
    have hnp : p ∉ s.active := hfresh p hd
    refine ⟨List.Nodup.cons hnp hnd, ?_, ?_, hple, fun _ h => nomatch h⟩
    · intro q
      dsimp only
      rw [List.count_cons, filter_len_cons, hown q]
      have howns : owns ⟨p, .acquiring⟩ = true := rfl
      by_cases hpq : p = q
      · subst hpq
        simp [howns, Nat.add_comm]
      · have h1 : (q == p) = false := beq_eq_false_iff_ne.mpr (fun hh => hpq hh.symm)
        have h2 : (p == q) = false := beq_eq_false_iff_ne.mpr hpq
        simp [h1, h2]
    · dsimp only
      rw [filter_len_cons]
      have hh : holdsPermit ⟨p, .acquiring⟩ = false := rfl
      rw [hh]
      simpa using hperm
  | wAcquire l1 l2 p hw hK =>
    refine ⟨hnd, ?_, ?_, ?_, hfresh⟩
    · intro q
      dsimp only
      rw [hown q, hw, filter_len_middle, filter_len_middle]
      have h1 : owns ⟨p, .acquiring⟩ = true := rfl
      have h2 : owns ⟨p, .running⟩ = true := rfl
      simp [h1, h2, owns]
    · dsimp only
      rw [hw] at hperm
      rw [filter_len_middle]
      rw [filter_len_middle] at hperm
      have h1 : holdsPermit ⟨p, .acquiring⟩ = false := rfl
      have h2 : holdsPermit ⟨p, .running⟩ = true := rfl
      rw [h1] at hperm
      rw [h2]
      simp at hperm ⊢
      omega
    · show s.permits + 1 ≤ K
      omega
  | wRunDone l1 l2 p hw =>
    refine ⟨hnd, ?_, ?_, hple, hfresh⟩
    · intro q
      dsimp only
      rw [hown q, hw, filter_len_middle, filter_len_middle]
      rfl
    · dsimp only
      rw [hw] at hperm
      rw [filter_len_middle]
      rw [filter_len_middle] at hperm
      exact hperm
  | wRunTransient l1 l2 p hw =>
    refine ⟨hnd, ?_, ?_, hple, hfresh⟩
    · intro q
      dsimp only
      rw [hown q, hw, filter_len_middle, filter_len_middle]
      rfl
    · dsimp only
      rw [hw] at hperm
      rw [filter_len_middle]
      rw [filter_len_middle] at hperm
      exact hperm
  | wRequeue l1 l2 p hw =>
    refine ⟨hnd, ?_, ?_, hple, hfresh⟩
    · intro q
      dsimp only
      rw [hown q, hw, filter_len_middle, filter_len_middle]
      rfl
    · dsimp only
      rw [hw] at hperm
      rw [filter_len_middle]
      rw [filter_len_middle] at hperm
      exact hperm
  | wRemove l1 l2 p hw =>
    refine ⟨List.Nodup.erase p hnd, ?_, ?_, hple, ?_⟩
    · intro q
      dsimp only
      have h1 : owns ⟨p, .removing⟩ = true := rfl
      have h2 : owns ⟨p, .releasing⟩ = false := rfl
      by_cases hpq : p = q
      · subst hpq
        rw [List.count_erase_self, hown p, hw, filter_len_middle,
          filter_len_middle]
        simp [h1, h2]
      · rw [List.count_erase_of_ne (fun h => hpq h.symm), hown q, hw,
          filter_len_middle, filter_len_middle]
        have hbeq : (p == q) = false := beq_eq_false_iff_ne.mpr hpq
        simp [hbeq]
    · dsimp only
      rw [hw] at hperm
      rw [filter_len_middle]
      rw [filter_len_middle] at hperm
      exact hperm
    · intro q hq hmem
      dsimp only at hq hmem
      exact hfresh q hq (List.erase_subset p s.active hmem)
  | wRelease l1 l2 p hw =>
    refine ⟨hnd, ?_, ?_, ?_, hfresh⟩
    · intro q
      dsimp only
      rw [hown q, hw, filter_len_middle, List.filter_append,
        List.length_append]
      have h2 : owns ⟨p, .releasing⟩ = false := rfl
      simp [h2]
    · dsimp only
      rw [hw] at hperm
      rw [List.filter_append, List.length_append]
      rw [filter_len_middle] at hperm
      have h2 : holdsPermit ⟨p, .releasing⟩ = true := rfl
      rw [h2] at hperm
      simp at hperm
      omega
    · show s.permits - 1 ≤ K
      omega

/-- Every reachable state satisfies the invariant. -/
theorem inv_reachable {K : Nat} {s : SysState} (h : Reachable K s) : Inv K s := by
  induction h with
  | refl => exact inv_init K
  | tail _ hstep ih => exact inv_step ih hstep

theorem length_filter_mono {α : Type} (p q : α → Bool) (l : List α)
    (hpq : ∀ a, p a = true → q a = true) :
    (l.filter p).length ≤ (l.filter q).length := by
  induction l with
  | nil => exact Nat.le_refl 0
  | cons a l ih =>
    rw [filter_len_cons, filter_len_cons]
    cases hpa : p a
    · cases q a <;> simp <;> omega
    · rw [hpq a hpa]
      simp
      omega

/-- C2: in every reachable state with `maxParallelJobs = K`, at most
`K` workers hold a semaphore permit; a worker runs the pipeline (and
hence the external ffmpeg process) only while holding a permit; so at
most `K` external processes run concurrently. -/
theorem c2_concurrency_ceiling (K : Nat) (s : SysState) (h : Reachable K s) :
    (s.workers.filter holdsPermit).length ≤ K ∧
    (s.workers.filter isRunning).length ≤
      (s.workers.filter holdsPermit).length ∧
    (s.workers.filter isRunning).length ≤ K := by
  obtain ⟨_, _, hperm, hple, _⟩ := inv_reachable h
  have hmono : (s.workers.filter isRunning).length ≤
      (s.workers.filter holdsPermit).length := by
    apply length_filter_mono
    intro w hw
    cases w with
    | mk pth pc => cases pc <;> simp [isRunning, holdsPermit] at hw ⊢
  have hK : (s.workers.filter holdsPermit).length ≤ K := hperm ▸ hple
  exact ⟨hK, hmono, le_trans hmono hK⟩

/-- Closed witness for C2 at `K = 1` and the (reachable) initial state. -/
theorem c2_concurrency_ceiling_witness :
    (initState.workers.filter holdsPermit).length ≤ 1 ∧
    (initState.workers.filter isRunning).length ≤
      (initState.workers.filter holdsPermit).length ∧
    (initState.workers.filter isRunning).length ≤ 1 :=
  c2_concurrency_ceiling 1 initState Relation.ReflTransGen.refl

/-- The run of the job system on one submission of path `0` with
`maxParallelJobs = 1`, in which the worker hits the transient
"not valid" failure and has just executed `requeue_file` but not yet
`active_jobs.remove` — the statement order of the source's
`spawn_file_processor` error arm.  In the resulting state path `0` is
simultaneously queued and active. -/
theorem reach_requeued :
    Reachable 1 ⟨[0], [0], 1, .waiting, [⟨0, .removing⟩], []⟩ := by
  have h0 : Reachable 1 initState := Relation.ReflTransGen.refl
  have h1 : Reachable 1 ⟨[], [], 0, .waiting, [], [⟨0, true, .checkActive⟩]⟩ :=
    h0.tail (Step.newSubmit _ 0 true)
  have h2 : Reachable 1 ⟨[], [], 0, .waiting, [], [⟨0, true, .enqueue⟩]⟩ :=
    h1.tail (Step.subCheckNeg _ [] [] 0 rfl (by simp))
  have h3 : Reachable 1 ⟨[0], [], 0, .waiting, [], []⟩ :=
    h2.tail (Step.subEnqueuePush _ [] [] 0 rfl (by simp))
  have h4 : Reachable 1 ⟨[], [], 0, .checking 0, [], []⟩ :=
    h3.tail (Step.dispPop _ 0 [] rfl rfl)
  have h5 : Reachable 1 ⟨[], [], 0, .activating 0, [], []⟩ :=
    h4.tail (Step.dispCheckNeg _ 0 rfl (by simp))
  have h6 : Reachable 1 ⟨[], [0], 0, .waiting, [⟨0, .acquiring⟩], []⟩ :=
    h5.tail (Step.dispActivate _ 0 rfl)
  have h7 : Reachable 1 ⟨[], [0], 1, .waiting, [⟨0, .running⟩], []⟩ :=
    h6.tail (Step.wAcquire _ [] [] 0 rfl (by decide))
  have h8 : Reachable 1 ⟨[], [0], 1, .waiting, [⟨0, .requeueing⟩], []⟩ :=
    h7.tail (Step.wRunTransient _ [] [] 0 rfl)
  exact h8.tail (Step.wRequeue _ [] [] 0 rfl)

/-- C1 counterexample: the claim asserts that in every reachable state
each path has at most one queued-or-active instance; but after a
transient failure the source requeues the path (`requeue_file`) before
removing its active marker, so a state is reachable in which path `0`
is both queued and active — two queued-or-active instances. -/
theorem c1_counterexample :
    ∃ s : SysState, Reachable 1 s ∧ s.queue.count 0 + s.active.count 0 = 2 :=
  ⟨⟨[0], [0], 1, .waiting, [⟨0, .removing⟩], []⟩, reach_requeued, by decide⟩

/-- C1 amended: in every reachable state, each path has at most one
*active* instance — the active set never holds duplicate entries, so at
most one worker holds the active marker for a path at any instant.
(The combined queued-or-active count can transiently reach two, per the
counterexample.) -/
theorem c1_amended_single_active (K : Nat) (s : SysState) (h : Reachable K s)
    (p : JPath) : s.active.count p ≤ 1 :=
  List.nodup_iff_count_le_one.mp (inv_reachable h).activeNodup p

/-- Closed witness for the amended C1 at `K = 1`, the initial state and
path `0`. -/
theorem c1_amended_single_active_witness : initState.active.count 0 ≤ 1 :=
  c1_amended_single_active 1 initState Relation.ReflTransGen.refl 0

/-- C3: evaluation of the code at the transient-failure run.  The
source's `spawn_file_processor` re-submits the path (`requeue_file`)
*before* removing it from the active set, not after as the claim
states.  Consequently the dispatcher, woken by the re-submission, can
pop the path while the marker is still held, find it active, and
discard it (`dispSkip`, the `continue` in `process_queued_files`);
the worker then removes the marker and releases its permit, and the
system reaches the idle state with the path gone from the queue, the
active set and the workers — the re-submission was discarded, not
accepted, and the file is never retried. -/
theorem c3_requeue_discarded :
    Reachable 1 ⟨[], [0], 1, .checking 0, [⟨0, .removing⟩], []⟩ ∧
    Step 1 ⟨[], [0], 1, .checking 0, [⟨0, .removing⟩], []⟩
      ⟨[], [0], 1, .waiting, [⟨0, .removing⟩], []⟩ ∧
    Relation.ReflTransGen (Step 1)
      ⟨[], [0], 1, .waiting, [⟨0, .removing⟩], []⟩
      ⟨[], [], 0, .waiting, [], []⟩ := by
  refine ⟨reach_requeued.tail (Step.dispPop _ 0 [] rfl rfl),
    Step.dispSkip _ 0 rfl (by simp), ?_⟩
  have ha : Relation.ReflTransGen (Step 1)
      ⟨[], [0], 1, .waiting, [⟨0, .removing⟩], []⟩
      ⟨[], [], 1, .waiting, [⟨0, .releasing⟩], []⟩ :=
    Relation.ReflTransGen.single (Step.wRemove _ [] [] 0 rfl)
  exact ha.tail (Step.wRelease _ [] [] 0 rfl)

end SSTC
